import Mathlib

/-!
Verification of the custom_grep repository (`src/CustomGrep.cpp`,
`src/FileCollector.cpp`, `inc/CustomGrep.h`): a recursive multi-file
text-search utility.  The C++ code is shallowly embedded below: strings are
`List Char`, the filesystem is a function from paths to open results, the
directory tree is an inductive value, and the thread fan-out of
`parallelSearch` is modelled by explicit per-worker buffers indexed by
worker id, with an explicit completion schedule.
-/

/-- Byte strings of the C++ code are modelled as lists of characters. -/
abbrev Str := List Char

/-- Model of `std::tolower` in the C locale, applied per byte
(`lowercaseInPlace` in CustomGrep.cpp maps `std::tolower` over the string). -/
def toLowerB (c : Char) : Char :=
  if 65 ≤ c.toNat ∧ c.toNat ≤ 90 then Char.ofNat (c.toNat + 32) else c

/-- Model of `lowercaseInPlace` (CustomGrep.cpp): lowercase every byte. -/
def lowerStr (s : Str) : Str := s.map toLowerB

/-- Does `hay` start with `needle`?  Auxiliary for `std::string::find`. -/
def strStarts : Str → Str → Bool
  | _, [] => true
  | [], _ :: _ => false
  | c :: cs, d :: ds => c = d && strStarts cs ds

/-- Model of `hay.find(needle) != std::string::npos`: some occurrence of
`needle` exists inside `hay`. -/
def strHasSub : Str → Str → Bool
  | [], needle => needle.isEmpty
  | c :: cs, needle => strStarts (c :: cs) needle || strHasSub cs needle

/-- Specification-side notion of "the line contains the query as a
substring": a decomposition into a left part, the query, and a right part. -/
def SpecContains (hay needle : Str) : Prop :=
  ∃ pre post, hay = pre ++ needle ++ post

/-- Model of the carriage-return stripping done before each line is tested
(`if (!line.empty() && line.back() == CR) line.pop_back();`). -/
def stripCR (l : Str) : Str :=
  if l.getLast? = some '\r' then l.dropLast else l

/-- Model of the `std::getline` loop: lines are maximal `'\n'`-free pieces;
a trailing piece without a terminator still counts as a line, and empty
content yields no lines. -/
def getLines : Str → List Str
  | [] => []
  | c :: cs =>
    if c = '\n' then [] :: getLines cs
    else
      match getLines cs with
      | [] => [[c]]
      | l :: ls => (c :: l) :: ls

/-- Pair each line with its 1-based line number, mirroring the
`++lineNumber` counter that advances once per line read. -/
def numberFrom (n : Nat) : List Str → List (Nat × Str)
  | [] => []
  | l :: ls => (n, l) :: numberFrom (n + 1) ls

/-- CR-stripped lines of a file's content, numbered from 1, exactly the
stream of `(lineNumber, line)` pairs the scanning loops see. -/
def numberLines (content : Str) : List (Nat × Str) :=
  numberFrom 1 ((getLines content).map stripCR)

/-- Model of `struct Match` (CustomGrep.h). -/
structure Match where
  path : String
  line_number : Nat
  line : Str
deriving DecidableEq, Repr

/-- Model of `CustomGrep::regularSearch` (CustomGrep.cpp): the literal
strategy.  The lowered query is computed once; each line is tested with
`std::string::find`, on the lowered line when `ignoreCase` is set, and the
original (CR-stripped) line is stored in the `Match`. -/
def regularSearch (ignoreCase : Bool) (query : Str) (path : String)
    (content : Str) : List Match :=
  let lowerQuery := if ignoreCase then lowerStr query else query
  (numberLines content).filterMap fun nl =>
    let hay := if ignoreCase then lowerStr nl.2 else nl.2
    if strHasSub hay lowerQuery then some ⟨path, nl.1, nl.2⟩ else none

deriving instance DecidableEq for Except

/-- Abstract syntax of the regular-expression subset exercised by the
repository (literal characters, `.`, postfix `*`, and the `^`/`$`
anchors), the common core on which the flavours of `std::regex` agree. -/
inductive RE where
  | eps
  | char (c : Char)
  | dot
  | bol
  | eol
  | star (r : RE)
  | seq (r₁ r₂ : RE)
deriving DecidableEq, Repr

/-- Error raised by regex compilation; `std::regex_error` in the code.
`invalid` marks patterns every flavour rejects (for instance a quantifier
with nothing to repeat); `unsupported` marks constructs outside the
modelled subset. -/
inductive RegexErr where
  | invalid
  | unsupported
deriving DecidableEq, Repr

/-- Character comparison of the regex engine: exact by default,
case-folded when the `icase` flag was set at compilation. -/
def charMatch (icase : Bool) (a b : Char) : Bool :=
  if icase then toLowerB a = toLowerB b else a = b

/-- Iterated one-step closure used to run `r*`: repeatedly extend the set
of reachable end positions by one more `r` match. -/
def starIter (f : Nat → List Nat) : Nat → List Nat → List Nat
  | 0, acc => acc
  | n + 1, acc => starIter f n ((acc ++ acc.flatMap f).dedup)

/-- End positions `j` such that the pattern matches `s` between positions
`i` and `j`.  Anchors consume nothing: `^` holds only at position 0 and
`$` only at the end of the line (`std::regex_search` on a single line). -/
def matchEnds (icase : Bool) : RE → Str → Nat → List Nat
  | .eps, _, i => [i]
  | .char c, s, i =>
    match s[i]? with
    | some d => if charMatch icase c d then [i + 1] else []
    | none => []
  | .dot, s, i => if i < s.length then [i + 1] else []
  | .bol, _, i => if i = 0 then [i] else []
  | .eol, s, i => if i = s.length then [i] else []
  | .seq r₁ r₂, s, i =>
    ((matchEnds icase r₁ s i).flatMap (fun j => matchEnds icase r₂ s j)).dedup
  | .star r, s, i => starIter (fun j => matchEnds icase r s j) (s.length + 1) [i]

/-- Model of `std::regex_search(line, re)`: the pattern matches somewhere
inside the line, i.e. starting from some position of the line. -/
def reSearch (icase : Bool) (re : RE) (s : Str) : Bool :=
  (List.range (s.length + 1)).any fun i => !(matchEnds icase re s i).isEmpty

/-- Metacharacters of the full regex grammar that the modelled subset does
not cover; compiling them reports `RegexErr.unsupported`. -/
def metaChars : List Char := ['+', '?', '(', ')', '[', ']', '{', '}', '|', '\\']

/-- Compilation loop: build the item list (most recent item first).  A `*`
must follow a quantifiable atom — a quantifier at the start of the
pattern, after an anchor, or after another `*` is invalid, as in
`std::regex`. -/
def compileAux : Str → List RE → Except RegexErr (List RE)
  | [], acc => .ok acc
  | c :: cs, acc =>
    if c = '^' then compileAux cs (.bol :: acc)
    else if c = '$' then compileAux cs (.eol :: acc)
    else if c = '.' then compileAux cs (.dot :: acc)
    else if c = '*' then
      match acc with
      | .char a :: rest => compileAux cs (.star (.char a) :: rest)
      | .dot :: rest => compileAux cs (.star .dot :: rest)
      | _ => .error .invalid
    else if c ∈ metaChars then .error .unsupported
    else compileAux cs (.char c :: acc)

/-- Model of `std::regex re(query, flags)` in `CustomGrep::regexSearch`:
compile the query string, failing on invalid patterns. -/
def compileRE (q : Str) : Except RegexErr RE :=
  (compileAux q []).map fun acc => acc.reverse.foldr RE.seq RE.eps

/-- Model of `CustomGrep::regexSearch` (CustomGrep.cpp): compile the query
once per scan call, then test every CR-stripped numbered line with
`std::regex_search`, storing the original stripped line in the `Match`.
A compilation failure propagates out of the scan. -/
def regexScan (ignoreCase : Bool) (query : Str) (path : String)
    (content : Str) : Except RegexErr (List Match) :=
  match compileRE query with
  | .error e => .error e
  | .ok re =>
    .ok ((numberLines content).filterMap fun nl =>
      if reSearch ignoreCase re nl.2 then some ⟨path, nl.1, nl.2⟩ else none)

/-- Result of `std::ifstream` opening a path: readable content, a
permission-denied failure, or any other OS-level open failure. -/
inductive OpenResult where
  | content (c : Str)
  | permissionDenied
  | openFailed
deriving DecidableEq

/-- The filesystem seen by the scanner: what opening each path yields. -/
abbrev FS := String → OpenResult

/-- Diagnostics written to the out-of-band streams (`std::cerr` /
`std::cout`), never mixed into the match results. -/
inductive Diag where
  | dirPermDenied (p : String)
  | pathNotExist (p : String)
  | pathNotRegular (p : String)
  | pathAccessError (p : String)
  | filesFound (n : Nat)
  | filePermDenied (p : String)
  | fileOpenFailed (p : String)
deriving DecidableEq, Repr

/-- Model of `CustomGrep::searchInFile` (CustomGrep.cpp): open the file;
an open failure is reported (distinguishing permission denied from other
failures) and yields an empty result without raising.  On success the
strategy selected by `useRegex` scans the lines; only a regex compilation
failure can propagate.  The second component is the emitted diagnostics. -/
def searchInFile (fs : FS) (ignoreCase useRegex : Bool) (query : Str)
    (p : String) : Except RegexErr (List Match) × List Diag :=
  match fs p with
  | .permissionDenied => (.ok [], [.filePermDenied p])
  | .openFailed => (.ok [], [.fileOpenFailed p])
  | .content c =>
    if useRegex then (regexScan ignoreCase query p c, [])
    else (.ok (regularSearch ignoreCase query p c), [])

/-- Ceiling division `(total_files + m_threadCount - 1) / m_threadCount`
computing how many files each thread processes. -/
def chunkSize (totalFiles threadCount : Nat) : Nat :=
  (totalFiles + threadCount - 1) / threadCount

/-- One worker's loop: scan the remaining files of its slice sequentially,
appending each file's matches to the worker-local buffer `out`.  An
exception thrown by a scan aborts the worker at that point. -/
def runWorkerLoop (fs : FS) (ignoreCase useRegex : Bool) (query : Str) :
    List String → List Match → Except RegexErr (List Match)
  | [], out => .ok out
  | p :: ps, out =>
    match (searchInFile fs ignoreCase useRegex query p).1 with
    | .error e => .error e
    | .ok ms => runWorkerLoop fs ignoreCase useRegex query ps (out ++ ms)

/-- Model of one worker's body in `parallelSearch`: scan its slice of the
file list sequentially into an initially empty worker-local buffer. -/
def runWorker (fs : FS) (ignoreCase useRegex : Bool) (query : Str)
    (slice : List String) : Except RegexErr (List Match) :=
  runWorkerLoop fs ignoreCase useRegex query slice []

/-- The slice of the file list handled by worker `i`:
`[i*chunk_size, min((i+1)*chunk_size, total_files))`. -/
def workerSlice (files : List String) (cs i : Nat) : List String :=
  (files.drop (i * cs)).take cs

/-- The dispatch loop of `parallelSearch`: worker indices are emitted for
`thread_index` from `i` while `thread_index < w`, breaking as soon as
`start_idx = thread_index * cs` reaches the file count `n`.  The fuel
argument bounds the loop and is instantiated with `w`. -/
def dispatchedFrom (w cs n : Nat) : Nat → Nat → List Nat
  | 0, _ => []
  | fuel + 1, i =>
    if i < w ∧ i * cs < n then i :: dispatchedFrom w cs n fuel (i + 1) else []

/-- Worker indices actually dispatched by `parallelSearch`. -/
def dispatched (w cs n : Nat) : List Nat := dispatchedFrom w cs n w 0

/-- Completion of the workers in the order given by `sched`: each finished
worker deposits its buffer in its own slot of `local_results` (indexed by
`thread_index`, not by completion order). -/
def writeSlots (buf : Nat → List Match) (sched : List Nat)
    (slots : List (List Match)) : List (List Match) :=
  sched.foldl (fun sl j => sl.set j (buf j)) slots

/-- Observable outcome of a `parallelSearch` call: a returned result list,
or abnormal process termination — a C++ exception that escapes a thread
entry function calls `std::terminate`, so it is never seen by the caller. -/
inductive SearchOutcome where
  | ok (ms : List Match)
  | terminated
deriving DecidableEq

/-- Value of a scan result that did not throw; the buffer contents. -/
def okD (e : Except RegexErr (List Match)) : List Match :=
  match e with
  | .ok ms => ms
  | .error _ => []

/-- Worker `i`'s buffer content (the value its scan loop would produce). -/
def workerBuf (fs : FS) (ignoreCase useRegex : Bool) (query : Str)
    (files : List String) (cs i : Nat) : Except RegexErr (List Match) :=
  runWorker fs ignoreCase useRegex query (workerSlice files cs i)

/-- Model of `CustomGrep::parallelSearch` (CustomGrep.cpp) with an
explicit completion schedule `sched`.  An empty file list or a zero thread
count returns an empty result at once.  Otherwise the dispatched workers
run over disjoint slices; if any worker's scan throws, the process is
terminated (the exception escapes the thread).  Otherwise the workers
deposit their buffers in `local_results` in completion order and the
buffers are concatenated in ascending worker-index order. -/
def parallelSearchSched (fs : FS) (ignoreCase useRegex : Bool)
    (threadCount : Nat) (files : List String) (query : Str)
    (sched : List Nat) : SearchOutcome :=
  let n := files.length
  if n = 0 ∨ threadCount = 0 then .ok []
  else
    let cs := chunkSize n threadCount
    let buf := fun i => workerBuf fs ignoreCase useRegex query files cs i
    if (dispatched threadCount cs n).all (fun i => (buf i).isOk) then
      .ok (List.flatten (writeSlots
        (fun i => okD (buf i)) sched
        (List.replicate threadCount [])))
    else .terminated

/-- Model of `CustomGrep::parallelSearch` itself: the outcome is the same
for every completion schedule (proved below), so the canonical schedule
lists the dispatched workers in order. -/
def parallelSearch (fs : FS) (ignoreCase useRegex : Bool)
    (threadCount : Nat) (files : List String) (query : Str) : SearchOutcome :=
  parallelSearchSched fs ignoreCase useRegex threadCount files query
    (dispatched threadCount (chunkSize files.length threadCount) files.length)

/-- A directory-tree entry as classified by the walk: a regular file, a
directory (with a flag saying whether opening it with
`std::filesystem::directory_iterator` succeeds, and its entries in
iteration order), or anything else (symlink, device, ...). -/
inductive FSTree where
  | file (name : String)
  | dir (name : String) (accessible : Bool) (entries : List FSTree)
  | other (name : String)

/-- Path of a child inside a directory. -/
def childPath (parent name : String) : String := parent ++ "/" ++ name

mutual

/-- Model of the body of `collectFilesRecursive` (CustomGrep.cpp and
FileCollector.cpp) applied to one entry of the current directory: a
regular file is appended, a directory is recursed into — where a failed
`directory_iterator` logs a permission-denied diagnostic and skips the
subtree — and anything else is skipped silently. -/
def collectEntry : String → FSTree → List String × List Diag
  | parent, .file n => ([childPath parent n], [])
  | _, .other _ => ([], [])
  | parent, .dir n ac entries =>
    let p := childPath parent n
    if ac then collectEntries p entries
    else ([], [.dirPermDenied p])

/-- The `for (const auto& entry : it)` loop over a directory's entries,
accumulating files and diagnostics in iteration order. -/
def collectEntries : String → List FSTree → List String × List Diag
  | _, [] => ([], [])
  | p, t :: ts =>
    let r := collectEntry p t
    let rs := collectEntries p ts
    (r.1 ++ rs.1, r.2 ++ rs.2)

end

/-- What the root path refers to, as classified by `is_directory` /
`is_regular_file` / `exists` in `collectFiles`. -/
inductive RootKind where
  | missing
  | regFile
  | directory (accessible : Bool) (entries : List FSTree)
  | special

/-- Model of `CustomGrep::collectFiles` (CustomGrep.cpp, same body in
FileCollector.cpp): a directory root is walked recursively, a regular
file root is returned as a one-element list, anything else yields an
empty list with a diagnostic; a count notice is printed when at least one
file was found. -/
def collectFiles (root : String) (k : RootKind) : List String × List Diag :=
  match k with
  | .directory ac entries =>
    let r :=
      if ac then collectEntries root entries
      else ([], [.dirPermDenied root])
    (r.1, r.2 ++ if r.1.isEmpty then [] else [.filesFound r.1.length])
  | .regFile => ([root], [.filesFound 1])
  | .missing => ([], [.pathNotExist root])
  | .special => ([], [.pathNotRegular root])

mutual

/-- Specification-side walk: the regular files reachable from an entry
without crossing an inaccessible directory, in traversal order. -/
def reachableFiles : String → FSTree → List String
  | parent, .file n => [childPath parent n]
  | _, .other _ => []
  | parent, .dir n ac entries =>
    if ac then reachableFilesList (childPath parent n) entries else []

def reachableFilesList : String → List FSTree → List String
  | _, [] => []
  | p, t :: ts => reachableFiles p t ++ reachableFilesList p ts

end

mutual

/-- Specification-side list of directories the walk is denied access to
(inaccessible directories not hidden inside another inaccessible one). -/
def deniedDirs : String → FSTree → List String
  | parent, .file _ => []
  | _, .other _ => []
  | parent, .dir n ac entries =>
    let p := childPath parent n
    if ac then deniedDirsList p entries else [p]

def deniedDirsList : String → List FSTree → List String
  | _, [] => []
  | p, t :: ts => deniedDirs p t ++ deniedDirsList p ts

end

theorem strStarts_iff (needle hay : Str) :
    strStarts hay needle = true ↔ ∃ rest, hay = needle ++ rest := by
  induction needle generalizing hay with
  | nil => simp [strStarts]
  | cons d ds ih =>
    cases hay with
    | nil => simp [strStarts]
    | cons c cs =>
      simp only [strStarts, Bool.and_eq_true, decide_eq_true_eq, ih, List.cons_append,
        List.cons.injEq]
      aesop

theorem strHasSub_iff (hay needle : Str) :
    strHasSub hay needle = true ↔ SpecContains hay needle := by
  induction hay with
  | nil =>
    simp only [strHasSub, List.isEmpty_iff, SpecContains]
    constructor
    · rintro rfl; exact ⟨[], [], rfl⟩
    · rintro ⟨pre, post, h⟩
      rcases List.append_eq_nil.mp h.symm with ⟨h1, h2⟩
      exact (List.append_eq_nil.mp h1).2
  | cons c cs ih =>
    simp only [strHasSub, Bool.or_eq_true, strStarts_iff, ih, SpecContains]
    constructor
    · rintro (⟨rest, hrest⟩ | ⟨pre, post, h⟩)
      · exact ⟨[], rest, by simp [hrest]⟩
      · exact ⟨c :: pre, post, by simp [h]⟩
    · rintro ⟨pre, post, h⟩
      cases pre with
      | nil => exact Or.inl ⟨post, by simpa using h⟩
      | cons a pre' =>
        right
        rw [List.cons_append, List.cons_append] at h
        exact ⟨pre', post, (List.cons.injEq .. ▸ h).2⟩

theorem strHasSub_nil (hay : Str) : strHasSub hay [] = true := by
  cases hay <;> simp [strHasSub, strStarts]

theorem numberFrom_length (k : Nat) (ls : List Str) :
    (numberFrom k ls).length = ls.length := by
  induction ls generalizing k with
  | nil => rfl
  | cons l ls ih => simp [numberFrom, ih]

theorem numberFrom_concat (k : Nat) (ls : List Str) (x : Str) :
    numberFrom k (ls ++ [x]) = numberFrom k ls ++ [(k + ls.length, x)] := by
  induction ls generalizing k with
  | nil => simp [numberFrom]
  | cons l ls ih => simp [numberFrom, ih]; omega

theorem getLines_no_newline (l : Str) (h : '\n' ∉ l) (hne : l ≠ []) :
    getLines l = [l] := by
  induction l with
  | nil => exact absurd rfl hne
  | cons c cs ih =>
    have hc : c ≠ '\n' := fun hc => h (hc ▸ List.mem_cons_self c cs)
    have hcs : '\n' ∉ cs := fun hm => h (List.mem_cons_of_mem c hm)
    cases cs with
    | nil => simp [getLines, hc]
    | cons d ds =>
      rw [getLines]
      simp only [if_neg hc, ih hcs (by simp)]

theorem getLines_line_append (l rest : Str) (h : '\n' ∉ l) :
    getLines (l ++ '\n' :: rest) = l :: getLines rest := by
  induction l with
  | nil => simp [getLines]
  | cons c cs ih =>
    have hc : c ≠ '\n' := fun hc => h (hc ▸ List.mem_cons_self c cs)
    have hcs : '\n' ∉ cs := fun hm => h (List.mem_cons_of_mem c hm)
    rw [List.cons_append, getLines]
    simp only [if_neg hc, ih hcs]

/-- Content built by writing each line followed by a terminator. -/
def encodeLines (ls : List Str) : Str := (ls.map (fun l => l ++ ['\n'])).flatten

theorem getLines_encode_append (ls : List Str) (last : Str)
    (h : ∀ l ∈ ls, '\n' ∉ l) (hl : '\n' ∉ last) (hne : last ≠ []) :
    getLines (encodeLines ls ++ last) = ls ++ [last] := by
  induction ls with
  | nil => simpa [encodeLines] using getLines_no_newline last hl hne
  | cons l ls ih =>
    have h1 : '\n' ∉ l := h l (List.mem_cons_self l ls)
    have h2 : ∀ x ∈ ls, '\n' ∉ x := fun x hx => h x (List.mem_cons_of_mem l hx)
    simp only [encodeLines, List.map_cons, List.flatten_cons, List.append_assoc,
      List.cons_append, List.nil_append]
    rw [show l ++ '\n' :: ((ls.map (fun x => x ++ ['\n'])).flatten ++ last)
        = l ++ '\n' :: (encodeLines ls ++ last) by simp [encodeLines],
      getLines_line_append l _ h1, ih h2]

theorem stripCR_concat_cr (s : Str) : stripCR (s ++ ['\r']) = s := by
  simp [stripCR]

theorem stripCR_no_cr (s : Str) (h : s.getLast? ≠ some '\r') : stripCR s = s := by
  simp [stripCR, h]

theorem mem_regularSearch (ic : Bool) (q : Str) (p : String) (content : Str) (m : Match) :
    m ∈ regularSearch ic q p content ↔
      ∃ nl ∈ numberLines content,
        strHasSub (if ic then lowerStr nl.2 else nl.2) (if ic then lowerStr q else q) = true ∧
        m = ⟨p, nl.1, nl.2⟩ := by
  simp only [regularSearch, List.mem_filterMap]
  constructor
  · rintro ⟨nl, hmem, hf⟩
    by_cases hc : strHasSub (if ic then lowerStr nl.2 else nl.2) (if ic then lowerStr q else q) = true
    · exact ⟨nl, hmem, hc, by simp only [hc, if_true] at hf; exact (Option.some.injEq .. ▸ hf).symm⟩
    · simp only [Bool.not_eq_true] at hc
      simp [hc] at hf
  · rintro ⟨nl, hmem, hc, rfl⟩
    exact ⟨nl, hmem, by simp [hc]⟩

/-- Content of the five-line file used by the literal-scan examples. -/
def needleDemo : Str := encodeLines ["First Line".data, "Needle is here".data,
  "no match".data, "another Needle present".data, "needle".data]

/-- C4: the literal strategy with `ignoreCase` false matches a line exactly
when it contains the query as an exact-byte substring, and with
`ignoreCase` true exactly when the per-byte-lowercased line contains the
per-byte-lowercased query; the `Match` stores the original (CR-stripped)
line text, and the `"needle"` ignore-case example matches lines 2, 4 and 5
with their original casing. -/
theorem literal_strategy_matches_substring :
    (∀ (q : Str) (p : String) (content : Str) (n : Nat) (l : Str),
      (n, l) ∈ numberLines content →
      ((⟨p, n, l⟩ : Match) ∈ regularSearch false q p content ↔ SpecContains l q)) ∧
    (∀ (q : Str) (p : String) (content : Str) (n : Nat) (l : Str),
      (n, l) ∈ numberLines content →
      ((⟨p, n, l⟩ : Match) ∈ regularSearch true q p content ↔
        SpecContains (lowerStr l) (lowerStr q))) ∧
    (∀ (ic : Bool) (q : Str) (p : String) (content : Str),
      ∀ m ∈ regularSearch ic q p content,
      m.path = p ∧ (m.line_number, m.line) ∈ numberLines content) ∧
    regularSearch true "needle".data "f" needleDemo =
      [⟨"f", 2, "Needle is here".data⟩, ⟨"f", 4, "another Needle present".data⟩,
       ⟨"f", 5, "needle".data⟩] := by
  refine ⟨?_, ?_, ?_, by decide⟩
  · intro q p content n l hmem
    rw [mem_regularSearch]
    constructor
    · rintro ⟨nl, hnl, hc, heq⟩
      have h1 : n = nl.1 := congrArg Match.line_number heq
      have h2 : l = nl.2 := congrArg Match.line heq
      subst h1; subst h2
      simpa [strHasSub_iff] using hc
    · intro hc
      exact ⟨(n, l), hmem, by simpa [strHasSub_iff] using hc, rfl⟩
  · intro q p content n l hmem
    rw [mem_regularSearch]
    constructor
    · rintro ⟨nl, hnl, hc, heq⟩
      have h1 : n = nl.1 := congrArg Match.line_number heq
      have h2 : l = nl.2 := congrArg Match.line heq
      subst h1; subst h2
      simpa [strHasSub_iff] using hc
    · intro hc
      exact ⟨(n, l), hmem, by simpa [strHasSub_iff] using hc, rfl⟩
  · intro ic q p content m hm
    rw [mem_regularSearch] at hm
    obtain ⟨nl, hnl, hc, rfl⟩ := hm
    exact ⟨rfl, by simpa using hnl⟩

/-- Witness for C4 at a concrete input: line 2 of the example file. -/
theorem literal_strategy_matches_substring_witness :
    (2, "Needle is here".data) ∈ numberLines needleDemo ∧
    ((⟨"f", 2, "Needle is here".data⟩ : Match) ∈
        regularSearch true "needle".data "f" needleDemo ↔
      SpecContains (lowerStr "Needle is here".data) (lowerStr "needle".data)) :=
  ⟨by decide, literal_strategy_matches_substring.2.1 "needle".data "f" needleDemo 2
    "Needle is here".data (by decide)⟩

/-- C9: a literal scan with the empty query returns one `Match` per line
of the file, for either value of `ignoreCase`, because the empty string
is a substring of every line. -/
theorem empty_query_matches_every_line (ic : Bool) (p : String) (content : Str) :
    regularSearch ic [] p content
      = (numberLines content).map (fun nl => (⟨p, nl.1, nl.2⟩ : Match)) ∧
    (regularSearch ic [] p content).length = (getLines content).length := by
  have h : regularSearch ic [] p content
      = (numberLines content).map (fun nl => (⟨p, nl.1, nl.2⟩ : Match)) := by
    simp only [regularSearch]
    generalize numberLines content = L
    induction L with
    | nil => cases ic <;> rfl
    | cons nl L ih =>
      cases ic <;> simp_all [List.filterMap_cons, strHasSub_nil, lowerStr]
  refine ⟨h, ?_⟩
  rw [h]
  simp [numberLines, numberFrom_length]

/-- C10: a final line with no trailing terminator is still read, counted
with the next 1-based line number, and can appear as a `Match`; CR
stripping removes at most one trailing carriage return and leaves
interior carriage returns intact. -/
theorem final_line_and_cr_stripping :
    (∀ (ls : List Str) (last : Str), (∀ l ∈ ls, '\n' ∉ l) → '\n' ∉ last → last ≠ [] →
      getLines (encodeLines ls ++ last) = ls ++ [last]) ∧
    (∀ (ls : List Str) (last : Str) (q : Str) (p : String),
      (∀ l ∈ ls, '\n' ∉ l) → '\n' ∉ last → last ≠ [] →
      SpecContains (stripCR last) q →
      (⟨p, ls.length + 1, stripCR last⟩ : Match) ∈
        regularSearch false q p (encodeLines ls ++ last)) ∧
    (∀ s : Str, stripCR (s ++ ['\r']) = s) ∧
    (∀ s : Str, s.getLast? ≠ some '\r' → stripCR s = s) ∧
    (∀ s : Str, stripCR (s ++ ['\r', '\r']) = s ++ ['\r']) := by
  refine ⟨getLines_encode_append, ?_, stripCR_concat_cr, stripCR_no_cr, ?_⟩
  · intro ls last q p hls hl hne hc
    rw [mem_regularSearch]
    refine ⟨(ls.length + 1, stripCR last), ?_, by simpa [strHasSub_iff] using hc, rfl⟩
    simp only [numberLines, getLines_encode_append ls last hls hl hne, List.map_append,
      List.map_cons, List.map_nil, numberFrom_concat]
    simp [numberFrom_length, Nat.add_comm]
  · intro s
    rw [show s ++ ['\r', '\r'] = (s ++ ['\r']) ++ ['\r'] by simp, stripCR_concat_cr]

/-- Witness for C10 at a concrete input: the file `"foo\nbar"` whose last
line has no terminator; `"bar"` is found at line 2. -/
theorem final_line_and_cr_stripping_witness :
    (⟨"f", 2, stripCR "bar".data⟩ : Match) ∈
      regularSearch false "bar".data "f" (encodeLines ["foo".data] ++ "bar".data) :=
  final_line_and_cr_stripping.2.1 ["foo".data] "bar".data "bar".data "f"
    (by decide) (by decide) (by decide) ⟨[], [], by decide⟩

/-- Content of the five-line file used by the regex examples. -/
def regexDemo : Str := encodeLines ["defStart".data, "Middle123".data,
  "no match here".data, "123end".data, "anotherdef".data]

/-- Content of the five-line file used by the ignore-case regex example. -/
def regexDemoCI : Str := encodeLines ["DEFstart".data, "MidDLe456".data,
  "NoMatch".data, "456end".data, "anotherDEF".data]

/-- The compiled form of the pattern `^def`. -/
def reDemo : RE := .seq .bol (.seq (.char 'd') (.seq (.char 'e') (.seq (.char 'f') .eps)))

/-- C2: the regex strategy compiles the query once per scan call and
reuses the compiled pattern on every line; a line matches when the
pattern is found anywhere within it; `^` holds only at line start and `$`
only at line end; character comparison is exact, or case-folded exactly
when `ignoreCase` is true; and on the five example lines `^def` matches
only line 1, `123$` only line 2, and `.*def` lines 1 and 5. -/
theorem regex_strategy_correct :
    (∀ (ic : Bool) (q : Str) (p : String) (c : Str) (re : RE), compileRE q = .ok re →
      regexScan ic q p c = .ok ((numberLines c).filterMap fun nl =>
        if reSearch ic re nl.2 then some ⟨p, nl.1, nl.2⟩ else none)) ∧
    (∀ (ic : Bool) (re : RE) (s : Str),
      reSearch ic re s = true ↔ ∃ i, i ≤ s.length ∧ matchEnds ic re s i ≠ []) ∧
    (∀ (ic : Bool) (s : Str) (i : Nat), matchEnds ic .bol s i = if i = 0 then [i] else []) ∧
    (∀ (ic : Bool) (s : Str) (i : Nat), matchEnds ic .eol s i = if i = s.length then [i] else []) ∧
    (∀ a b : Char, charMatch false a b = true ↔ a = b) ∧
    (∀ a b : Char, charMatch true a b = true ↔ toLowerB a = toLowerB b) ∧
    ((regexScan false "^def".data "f" regexDemo).map (fun ms => ms.map Match.line_number)
      = .ok [1]) ∧
    ((regexScan false "123$".data "f" regexDemo).map (fun ms => ms.map Match.line_number)
      = .ok [2]) ∧
    ((regexScan false ".*def".data "f" regexDemo).map (fun ms => ms.map Match.line_number)
      = .ok [1, 5]) ∧
    ((regexScan true "^def".data "f" regexDemoCI).map (fun ms => ms.map Match.line_number)
      = .ok [1]) := by
  refine ⟨?_, ?_, fun ic s i => rfl, fun ic s i => rfl, ?_, ?_,
    by decide, by decide, by decide, by decide⟩
  · intro ic q p c re h
    simp [regexScan, h]
  · intro ic re s
    simp only [reSearch, List.any_eq_true, List.mem_range, Bool.not_eq_true',
      List.isEmpty_iff, Bool.not_eq_true, ne_eq]
    constructor
    · rintro ⟨i, hi, hne⟩
      exact ⟨i, Nat.lt_succ_iff.mp hi, by simpa using hne⟩
    · rintro ⟨i, hi, hne⟩
      exact ⟨i, Nat.lt_succ_iff.mpr hi, by simpa using hne⟩
  · intro a b; simp [charMatch]
  · intro a b; simp [charMatch]

/-- Witness for C2 at a concrete input: the pattern `^def` compiles to
`reDemo` and scanning reuses that single compiled pattern. -/
theorem regex_strategy_correct_witness :
    compileRE "^def".data = .ok reDemo ∧
    regexScan false "^def".data "f" regexDemo
      = .ok ((numberLines regexDemo).filterMap fun nl =>
          if reSearch false reDemo nl.2 then some ⟨"f", nl.1, nl.2⟩ else none) :=
  ⟨by decide, regex_strategy_correct.1 false "^def".data "f" regexDemo reDemo (by decide)⟩

/-- A filesystem on which every path opens with readable content. -/
def fsDemo : FS := fun _ => .content "x\n".data

/-- C3: evaluation at the failing input.  The pattern `*` is rejected by
regex compilation; a direct `searchInFile` call propagates that failure
to its caller, but a `parallelSearch` call over a non-empty file list
compiles the pattern inside a worker thread, where the escaping exception
terminates the process instead of propagating — `SearchOutcome` has no
error alternative a caller could receive. -/
theorem invalid_regex_terminates_process :
    compileRE "*".data = .error .invalid ∧
    (searchInFile fsDemo false true "*".data "f").1 = .error .invalid ∧
    parallelSearch fsDemo false true 4 ["f"] "*".data = .terminated :=
  ⟨by decide, by decide, by decide⟩

/-- The index range assigned to worker `i`. -/
def wRange (cs n i : Nat) : List Nat :=
  List.range' (i * cs) (min ((i + 1) * cs) n - i * cs)

theorem chunkSize_pos (n w : Nat) (hw : 1 ≤ w) (hn : 1 ≤ n) : 1 ≤ chunkSize n w := by
  unfold chunkSize
  rw [Nat.le_div_iff_mul_le (show 0 < w by omega)]
  omega

theorem le_mul_chunkSize (n w : Nat) (hw : 1 ≤ w) : n ≤ w * chunkSize n w := by
  rcases Nat.eq_zero_or_pos n with hn | hn
  · simp [hn]
  · unfold chunkSize
    have hd := Nat.div_add_mod (n + w - 1) w
    have hm : (n + w - 1) % w < w := Nat.mod_lt _ (by omega)
    omega

theorem wRange_flatten_aux (cs n : Nat) (hcs : 1 ≤ cs) (k : Nat) :
    ((List.range k).map (wRange cs n)).flatten = List.range (min (k * cs) n) := by
  induction k with
  | zero => simp
  | succ k ih =>
    rw [List.range_succ, List.map_append, List.flatten_append, ih]
    simp only [List.map_cons, List.map_nil, List.flatten_cons, List.flatten_nil,
      List.append_nil, wRange]
    rcases le_or_lt n (k * cs) with h | h
    · have h1 : min (k * cs) n = n := by omega
      have h2 : min ((k + 1) * cs) n = n := by
        have : k * cs ≤ (k + 1) * cs := by nlinarith
        omega
      rw [h1, h2]
      have h3 : n - k * cs = 0 := by omega
      rw [h3, List.range'_zero, List.append_nil]
    · have h1 : min (k * cs) n = k * cs := by omega
      rw [h1, List.range_eq_range', List.range_eq_range']
      have h3 : k * cs ≤ min ((k + 1) * cs) n := by
        have : k * cs + cs ≤ (k + 1) * cs := by nlinarith
        omega
      have happ := List.range'_append 0 (k * cs) (min ((k + 1) * cs) n - k * cs) 1
      simp only [Nat.one_mul, Nat.zero_add] at happ
      rw [happ]
      congr 1
      omega

theorem wRange_flatten (n w : Nat) (hw : 1 ≤ w) :
    ((List.range w).map (wRange (chunkSize n w) n)).flatten = List.range n := by
  rcases Nat.eq_zero_or_pos n with hn | hn
  · subst hn
    simp [wRange]
  · rw [wRange_flatten_aux _ _ (chunkSize_pos n w hw hn) w]
    congr 1
    have := le_mul_chunkSize n w hw
    omega

theorem mem_wRange (cs n i k : Nat) :
    k ∈ wRange cs n i ↔ i * cs ≤ k ∧ k < min ((i + 1) * cs) n := by
  simp only [wRange, List.mem_range'_1]
  omega

theorem wRange_unique (n w k : Nat) (hw : 1 ≤ w) (hk : k < n) :
    ∃! i, i < w ∧ k ∈ wRange (chunkSize n w) n i := by
  have hflat := wRange_flatten n w hw
  have hk2 : k ∈ List.range n := List.mem_range.mpr hk
  rw [← hflat] at hk2
  rcases List.mem_flatten.mp hk2 with ⟨l, hl, hkl⟩
  rcases List.mem_map.mp hl with ⟨i, hi, rfl⟩
  refine ⟨i, ⟨List.mem_range.mp hi, hkl⟩, ?_⟩
  rintro j ⟨hj, hkj⟩
  have h1 := (mem_wRange _ _ _ _).mp hkl
  have h2 := (mem_wRange _ _ _ _).mp hkj
  have e1 : k / chunkSize n w = i :=
    Nat.div_eq_of_lt_le h1.1 (lt_of_lt_of_le h1.2 (min_le_left _ _))
  have e2 : k / chunkSize n w = j :=
    Nat.div_eq_of_lt_le h2.1 (lt_of_lt_of_le h2.2 (min_le_left _ _))
  omega

theorem runWorkerLoop_ok (fs : FS) (ic ur : Bool) (q : Str) (f : String → List Match) :
    ∀ (slice : List String) (acc : List Match),
      (∀ p ∈ slice, (searchInFile fs ic ur q p).1 = .ok (f p)) →
      runWorkerLoop fs ic ur q slice acc = .ok (acc ++ slice.flatMap f) := by
  intro slice
  induction slice with
  | nil => intro acc h; simp [runWorkerLoop]
  | cons p ps ih =>
    intro acc h
    have hred : runWorkerLoop fs ic ur q (p :: ps) acc
        = runWorkerLoop fs ic ur q ps (acc ++ f p) := by
      rw [runWorkerLoop, h p (List.mem_cons_self p ps)]
    rw [hred, ih (acc ++ f p) (fun x hx => h x (List.mem_cons_of_mem p hx))]
    simp

theorem runWorker_ok (fs : FS) (ic ur : Bool) (q : Str) (f : String → List Match)
    (slice : List String) (h : ∀ p ∈ slice, (searchInFile fs ic ur q p).1 = .ok (f p)) :
    runWorker fs ic ur q slice = .ok (slice.flatMap f) := by
  rw [runWorker, runWorkerLoop_ok fs ic ur q f slice [] h, List.nil_append]

theorem dispatchedFrom_eq (w cs n : Nat) (hcs : 1 ≤ cs) (hn : 1 ≤ n) :
    ∀ fuel i, dispatchedFrom w cs n fuel i
      = List.range' i (min (i + fuel) (min w ((n - 1) / cs + 1)) - i) := by
  intro fuel
  induction fuel with
  | zero => intro i; simp [dispatchedFrom]
  | succ fuel ih =>
    intro i
    rw [dispatchedFrom]
    have hiff : (i * cs < n) ↔ i ≤ (n - 1) / cs := by
      rw [Nat.le_div_iff_mul_le (show 0 < cs by omega)]
      omega
    by_cases hguard : i < w ∧ i * cs < n
    · rw [if_pos hguard, ih (i + 1)]
      have h2 : i ≤ (n - 1) / cs := hiff.mp hguard.2
      have h3 : i < w := hguard.1
      rw [show min (i + (fuel + 1)) (min w ((n - 1) / cs + 1)) - i
          = (min (i + 1 + fuel) (min w ((n - 1) / cs + 1)) - (i + 1)) + 1 by omega]
      rw [List.range'_succ]
    · rw [if_neg hguard]
      have h4 : w ≤ i ∨ ¬ i ≤ (n - 1) / cs := by
        rcases Decidable.not_and_iff_or_not.mp hguard with h | h
        · exact Or.inl (by omega)
        · exact Or.inr (fun hc => h (hiff.mpr hc))
      rw [show min (i + (fuel + 1)) (min w ((n - 1) / cs + 1)) - i = 0 by omega,
        List.range'_zero]

theorem dispatched_eq_range (w cs n : Nat) (hcs : 1 ≤ cs) (hn : 1 ≤ n) :
    dispatched w cs n = List.range (min w ((n - 1) / cs + 1)) := by
  rw [dispatched, dispatchedFrom_eq w cs n hcs hn w 0, List.range_eq_range']
  congr 1
  generalize (n - 1) / cs + 1 = d
  omega

theorem slices_take (files : List String) (cs : Nat) (k : Nat) :
    ((List.range k).map (fun i => workerSlice files cs i)).flatten = files.take (k * cs) := by
  induction k with
  | zero => simp
  | succ k ih =>
    rw [List.range_succ, List.map_append, List.flatten_append, ih]
    simp only [List.map_cons, List.map_nil, List.flatten_cons, List.flatten_nil,
      List.append_nil, workerSlice]
    rw [show (k + 1) * cs = k * cs + cs by ring, List.take_add]

theorem min_mul_chunk_ge (n w : Nat) (hw : 1 ≤ w) (hn : 1 ≤ n) :
    n ≤ min w ((n - 1) / chunkSize n w + 1) * chunkSize n w := by
  set cs := chunkSize n w with hcsdef
  have hcs1 : 1 ≤ cs := chunkSize_pos n w hw hn
  have h1 : n ≤ w * cs := le_mul_chunkSize n w hw
  rcases le_total w ((n - 1) / cs + 1) with hle | hle
  · rw [Nat.min_eq_left hle]; exact h1
  · rw [Nat.min_eq_right hle]
    have hd := Nat.div_add_mod (n - 1) cs
    have hm : (n - 1) % cs < cs := Nat.mod_lt _ (by omega)
    have e : ((n - 1) / cs + 1) * cs = cs * ((n - 1) / cs) + cs := by ring
    rw [e]
    omega

theorem writeSlots_getElem (buf : Nat → List Match) (sched : List Nat) :
    ∀ (slots : List (List Match)) (j : Nat),
      (writeSlots buf sched slots)[j]?
        = if j ∈ sched then (if j < slots.length then some (buf j) else none)
          else slots[j]? := by
  induction sched with
  | nil => intro slots j; simp [writeSlots]
  | cons s ss ih =>
    intro slots j
    have hstep : writeSlots buf (s :: ss) slots = writeSlots buf ss (slots.set s (buf s)) := rfl
    rw [hstep, ih (slots.set s (buf s)) j, List.length_set]
    by_cases h1 : j ∈ ss
    · simp [h1, List.mem_cons]
    · by_cases h2 : j = s
      · subst h2
        simp [h1, List.getElem?_set, List.mem_cons]
      · have h3 : ¬ s = j := fun h => h2 h.symm
        simp [h1, h2, h3, List.getElem?_set, List.mem_cons]

theorem writeSlots_replicate (buf : Nat → List Match) (sched : List Nat) (w : Nat) :
    writeSlots buf sched (List.replicate w [])
      = (List.range w).map (fun j => if j ∈ sched then buf j else []) := by
  apply List.ext_getElem?
  intro j
  rw [writeSlots_getElem, List.getElem?_map, List.length_replicate]
  by_cases hj : j < w
  · rw [List.getElem?_range hj]
    by_cases hs : j ∈ sched <;> simp [hs, hj, List.getElem?_replicate]
  · have h1 : (List.range w)[j]? = none := by
      rw [List.getElem?_eq_none]
      simpa using Nat.le_of_not_lt hj
    rw [h1]
    by_cases hs : j ∈ sched <;> simp [hs, hj, List.getElem?_replicate]

theorem flatten_ite_range (buf : Nat → List Match) (D w : Nat) (hD : D ≤ w) :
    ((List.range w).map (fun j => if j ∈ List.range D then buf j else [])).flatten
      = ((List.range D).map buf).flatten := by
  have hsplit : List.range w = List.range D ++ List.range' D (w - D) := by
    rw [List.range_eq_range', List.range_eq_range']
    have happ := List.range'_append 0 D (w - D) 1
    simp only [Nat.one_mul, Nat.zero_add] at happ
    rw [happ]
    congr 1
    omega
  rw [hsplit, List.map_append, List.flatten_append]
  have h1 : ((List.range D).map (fun j => if j ∈ List.range D then buf j else []))
      = (List.range D).map buf :=
    List.map_congr_left (fun j hj => if_pos hj)
  have h2 : ((List.range' D (w - D)).map
      (fun j => if j ∈ List.range D then buf j else [])).flatten = [] := by
    rw [List.flatten_eq_nil_iff]
    intro l hl
    rcases List.mem_map.mp hl with ⟨j, hj, rfl⟩
    have h3 := List.mem_range'_1.mp hj
    have h4 : j ∉ List.range D := by
      simp only [List.mem_range]
      omega
    rw [if_neg h4]
  rw [h1, h2, List.append_nil]

theorem flatten_map_flatMap (L : List Nat) (g : Nat → List String) (f : String → List Match) :
    (L.map (fun x => (g x).flatMap f)).flatten = ((L.map g).flatten).flatMap f := by
  induction L with
  | nil => rfl
  | cons x L ih =>
    simp only [List.map_cons, List.flatten_cons, ih, List.flatMap_append]

/-- When every per-file scan succeeds, the parallel search returns the
concatenation of the dispatched workers' buffers in ascending worker
order, which equals the per-file results concatenated in file-list
order. -/
theorem parallelSearch_ok (fs : FS) (ic ur : Bool) (w : Nat) (q : Str)
    (files : List String) (f : String → List Match) (hw : 1 ≤ w)
    (hok : ∀ p ∈ files, (searchInFile fs ic ur q p).1 = .ok (f p)) :
    parallelSearch fs ic ur w files q = .ok (files.flatMap f) ∧
    parallelSearch fs ic ur w files q
      = .ok (((dispatched w (chunkSize files.length w) files.length).map
          (fun i => okD (workerBuf fs ic ur q files (chunkSize files.length w) i))).flatten) := by
  set n := files.length with hn
  set cs := chunkSize n w with hcs
  rcases Nat.eq_zero_or_pos n with hn0 | hn1
  · have hfe : files = [] := List.length_eq_zero.mp hn0
    have hdisp : dispatched w cs n = [] := by
      cases w with
      | zero => omega
      | succ w2 => simp [dispatched, dispatchedFrom, hn0]
    rw [hfe]
    constructor <;>
      simp [parallelSearch, parallelSearchSched, hdisp, ← hcs, ← hn, hfe]
  · have hcs1 : 1 ≤ cs := chunkSize_pos n w hw hn1
    have hbuf : ∀ i, workerBuf fs ic ur q files cs i
        = .ok ((workerSlice files cs i).flatMap f) := by
      intro i
      exact runWorker_ok fs ic ur q f _ (fun p hp =>
        hok p (List.mem_of_mem_drop (List.mem_of_mem_take hp)))
    have hall : (dispatched w cs n).all
        (fun i => (workerBuf fs ic ur q files cs i).isOk) = true := by
      rw [List.all_eq_true]
      intro i _
      rw [hbuf i]
      rfl
    have hD := dispatched_eq_range w cs n hcs1 hn1
    set D := min w ((n - 1) / cs + 1) with hDdef
    have hDw : D ≤ w := min_le_left _ _
    have hmap : (List.range D).map (fun j => okD (workerBuf fs ic ur q files cs j))
        = (List.range D).map (fun i => (workerSlice files cs i).flatMap f) := by
      apply List.map_congr_left
      intro i _
      rw [hbuf i]
      rfl
    have hmain : parallelSearch fs ic ur w files q
        = .ok (((List.range D).map
            (fun i => (workerSlice files cs i).flatMap f)).flatten) := by
      rw [parallelSearch, parallelSearchSched]
      simp only [← hn, ← hcs]
      rw [if_neg (by omega)]
      rw [hall]
      simp only [if_true]
      rw [hD, writeSlots_replicate, flatten_ite_range _ D w hDw, hmap]
    have hcover : ((List.range D).map (fun i => workerSlice files cs i)).flatten = files := by
      rw [slices_take]
      apply List.take_of_length_le
      exact min_mul_chunk_ge n w hw hn1
    constructor
    · rw [hmain, flatten_map_flatMap (List.range D) (fun i => workerSlice files cs i) f, hcover]
    · rw [hmain, hD, hmap]

/-- C1: with `chunkSize = ceil(N / W)` the worker ranges
`[i*chunkSize, min((i+1)*chunkSize, N))` concatenate, in ascending worker
order, to exactly the index list `[0, ..., N-1]` (so they are disjoint,
contiguous, ascending, and cover every index exactly once), and the
returned sequence is the concatenation of the dispatched workers'
sequential per-file `searchInFile` results in ascending worker order,
equal to the per-file results in file-list order. -/
theorem partition_and_merge_correct :
    (∀ n w : Nat, 1 ≤ w →
      ((List.range w).map (wRange (chunkSize n w) n)).flatten = List.range n) ∧
    (∀ n w k : Nat, 1 ≤ w → k < n → ∃! i, i < w ∧ k ∈ wRange (chunkSize n w) n i) ∧
    (∀ cs n i k : Nat, k ∈ wRange cs n i ↔ i * cs ≤ k ∧ k < min ((i + 1) * cs) n) ∧
    (∀ (fs : FS) (ic ur : Bool) (w : Nat) (q : Str) (files : List String)
        (f : String → List Match), 1 ≤ w →
      (∀ p ∈ files, (searchInFile fs ic ur q p).1 = .ok (f p)) →
      parallelSearch fs ic ur w files q
        = .ok (((dispatched w (chunkSize files.length w) files.length).map
            (fun i => okD (workerBuf fs ic ur q files (chunkSize files.length w) i))).flatten) ∧
      parallelSearch fs ic ur w files q = .ok (files.flatMap f)) := by
  refine ⟨wRange_flatten, wRange_unique, mem_wRange, ?_⟩
  intro fs ic ur w q files f hw hok
  have h := parallelSearch_ok fs ic ur w q files f hw hok
  exact ⟨h.2, h.1⟩

/-- per-file results on `fsDemo` for the literal query `x`. -/
def fW : String → List Match := fun p => [⟨p, 1, ['x']⟩]

/-- Witness for C1 at a concrete input: three files over two workers. -/
theorem partition_and_merge_correct_witness :
    (∀ p ∈ (["a", "b", "c"] : List String),
        (searchInFile fsDemo false false "x".data p).1 = .ok (fW p)) ∧
    parallelSearch fsDemo false false 2 ["a", "b", "c"] "x".data
      = .ok ((["a", "b", "c"] : List String).flatMap fW) :=
  ⟨by decide, (partition_and_merge_correct.2.2.2 fsDemo false false 2 "x".data
    ["a", "b", "c"] fW (by decide) (by decide)).2⟩

/-- C6: a file whose open fails yields an empty result with a diagnostic
that distinguishes permission denial from other failures, never raising
past the scan boundary; inside a parallel search such a file contributes
zero matches while every other file is still processed. -/
theorem open_failure_absorbed :
    (∀ (fs : FS) (ic ur : Bool) (q : Str) (p : String), fs p = .permissionDenied →
      searchInFile fs ic ur q p = (.ok [], [.filePermDenied p])) ∧
    (∀ (fs : FS) (ic ur : Bool) (q : Str) (p : String), fs p = .openFailed →
      searchInFile fs ic ur q p = (.ok [], [.fileOpenFailed p])) ∧
    (∀ p : String, Diag.filePermDenied p ≠ Diag.fileOpenFailed p) ∧
    (∀ (fs : FS) (ic ur : Bool) (w : Nat) (q : Str) (files : List String)
        (f : String → List Match) (bad : String), 1 ≤ w → bad ∈ files →
      (fs bad = .permissionDenied ∨ fs bad = .openFailed) →
      (∀ p ∈ files, (searchInFile fs ic ur q p).1 = .ok (f p)) →
      f bad = [] ∧ parallelSearch fs ic ur w files q = .ok (files.flatMap f)) := by
  refine ⟨?_, ?_, fun p h => Diag.noConfusion h, ?_⟩
  · intro fs ic ur q p h
    simp [searchInFile, h]
  · intro fs ic ur q p h
    simp [searchInFile, h]
  · intro fs ic ur w q files f bad hw hmem hbad hok
    have hempty : (searchInFile fs ic ur q bad).1 = .ok [] := by
      rcases hbad with h | h <;> simp [searchInFile, h]
    have h1 : f bad = [] := by
      have h2 := hok bad hmem
      rw [hempty] at h2
      exact (Except.ok.injEq .. ▸ h2).symm
    exact ⟨h1, (parallelSearch_ok fs ic ur w q files f hw hok).1⟩

/-- A filesystem on which path `b` is unreadable and all others open. -/
def fsBad : FS := fun p => if p = "b" then .permissionDenied else .content "x\n".data

/-- Witness for C6 at a concrete input: the unreadable file `b`
contributes nothing; `a` and `c` are still searched. -/
theorem open_failure_absorbed_witness :
    parallelSearch fsBad false false 2 ["a", "b", "c"] "x".data
      = .ok ((["a", "b", "c"] : List String).flatMap
          (fun p => if p = "b" then [] else [⟨p, 1, ['x']⟩])) :=
  (open_failure_absorbed.2.2.2 fsBad false false 2 "x".data ["a", "b", "c"]
    (fun p => if p = "b" then [] else [⟨p, 1, ['x']⟩]) "b" (by decide) (by decide)
    (by decide) (by decide)).2

/-- Slot writes depend only on which workers completed, not on their
completion order. -/
theorem writeSlots_membership (buf : Nat → List Match) (s₁ s₂ : List Nat) (w : Nat)
    (h : ∀ j, j ∈ s₁ ↔ j ∈ s₂) :
    writeSlots buf s₁ (List.replicate w []) = writeSlots buf s₂ (List.replicate w []) := by
  rw [writeSlots_replicate, writeSlots_replicate]
  apply List.map_congr_left
  intro j _
  by_cases hj : j ∈ s₁
  · rw [if_pos hj, if_pos ((h j).mp hj)]
  · rw [if_neg hj, if_neg (fun hc => hj ((h j).mpr hc))]

/-- C7: for a fixed query, file list, configuration and filesystem, the
outcome of the parallel search is identical under any two completion
schedules of the dispatched workers — the result is deterministic and
independent of thread completion timing. -/
theorem search_deterministic (fs : FS) (ic ur : Bool) (w : Nat)
    (files : List String) (q : Str) (sched₁ sched₂ : List Nat)
    (h₁ : sched₁.Perm (dispatched w (chunkSize files.length w) files.length))
    (h₂ : sched₂.Perm (dispatched w (chunkSize files.length w) files.length)) :
    parallelSearchSched fs ic ur w files q sched₁
      = parallelSearchSched fs ic ur w files q sched₂ := by
  simp only [parallelSearchSched]
  rw [writeSlots_membership _ sched₁ sched₂ w
    (fun j => (h₁.mem_iff).trans (h₂.mem_iff).symm)]

/-- Witness for C7 at a concrete input: reversed completion order yields
the same result. -/
theorem search_deterministic_witness :
    ([1, 0] : List Nat).Perm (dispatched 2 (chunkSize 3 2) 3) ∧
    parallelSearchSched fsDemo false false 2 ["a", "b", "c"] "x".data [1, 0]
      = parallelSearchSched fsDemo false false 2 ["a", "b", "c"] "x".data [0, 1] :=
  ⟨by decide, search_deterministic fsDemo false false 2 ["a", "b", "c"] "x".data
    [1, 0] [0, 1] (by decide) (by decide)⟩

theorem collectEntry_fst_eq : ∀ (p : String) (t : FSTree),
    (collectEntry p t).1 = reachableFiles p t :=
  collectEntry.induct
    (fun p t => (collectEntry p t).1 = reachableFiles p t)
    (fun p ts => (collectEntries p ts).1 = reachableFilesList p ts)
    (fun _ _ => rfl)
    (fun _ _ => rfl)
    (fun parent n entries ih => by
      simpa [collectEntry, reachableFiles] using ih)
    (fun parent n ac entries hac => by
      have : ac = false := by simpa using hac
      subst this
      simp [collectEntry, reachableFiles])
    (fun _ => rfl)
    (fun p t ts ih1 ih2 => by
      simp [collectEntries, reachableFilesList, ih1, ih2])

theorem collectEntries_fst_eq (p : String) (ts : List FSTree) :
    (collectEntries p ts).1 = reachableFilesList p ts := by
  induction ts with
  | nil => rfl
  | cons t ts ih => simp [collectEntries, reachableFilesList, collectEntry_fst_eq, ih]

theorem collectEntry_denied_diag : ∀ (p : String) (t : FSTree),
    ∀ d ∈ deniedDirs p t, Diag.dirPermDenied d ∈ (collectEntry p t).2 :=
  collectEntry.induct
    (fun p t => ∀ d ∈ deniedDirs p t, Diag.dirPermDenied d ∈ (collectEntry p t).2)
    (fun p ts => ∀ d ∈ deniedDirsList p ts, Diag.dirPermDenied d ∈ (collectEntries p ts).2)
    (fun _ _ => by simp [deniedDirs])
    (fun _ _ => by simp [deniedDirs])
    (fun parent n entries ih => by
      simpa [collectEntry, deniedDirs] using ih)
    (fun parent n ac entries hac => by
      have : ac = false := by simpa using hac
      subst this
      simp [collectEntry, deniedDirs])
    (fun _ => by simp [deniedDirsList])
    (fun p t ts ih1 ih2 => by
      intro d hd
      simp only [deniedDirsList, List.mem_append] at hd
      simp only [collectEntries, List.mem_append]
      rcases hd with hd | hd
      · exact Or.inl (ih1 d hd)
      · exact Or.inr (ih2 d hd))

/-- The directory tree of the spec's permission example: `pre/a.txt`, an
inaccessible `denied/` containing `secret.txt`, and `post/b.txt`. -/
def exampleTree : RootKind := .directory true
  [ .dir "pre" true [.file "a.txt"],
    .dir "denied" false [.file "secret.txt"],
    .dir "post" true [.file "b.txt"] ]

/-- C5: a denied directory is skipped entirely with a permission-denied
diagnostic, while every regular file reachable without crossing the
inaccessible directory is still returned — sibling and ancestor
enumeration is unaffected and the walk (a total function) never aborts;
the spec's `pre`/`denied`/`post` example yields exactly
`pre/a.txt` and `post/b.txt`. -/
theorem denied_subtree_skipped :
    (∀ (p : String) (t : FSTree), (collectEntry p t).1 = reachableFiles p t) ∧
    (∀ (p : String) (t : FSTree), ∀ d ∈ deniedDirs p t,
      Diag.dirPermDenied d ∈ (collectEntry p t).2) ∧
    (∀ (root : String) (entries : List FSTree),
      (collectFiles root (.directory true entries)).1 = reachableFilesList root entries) ∧
    (collectFiles "root" exampleTree).1 = ["root/pre/a.txt", "root/post/b.txt"] ∧
    Diag.dirPermDenied "root/denied" ∈ (collectFiles "root" exampleTree).2 := by
  refine ⟨collectEntry_fst_eq, collectEntry_denied_diag, ?_, by decide, by decide⟩
  intro root entries
  simpa [collectFiles] using collectEntries_fst_eq root entries

/-- Witness for C5 at a concrete input: the denied directory of the
example emits its permission-denied diagnostic. -/
theorem denied_subtree_skipped_witness :
    "root/denied" ∈ deniedDirs "root" (FSTree.dir "denied" false [.file "secret.txt"]) ∧
    Diag.dirPermDenied "root/denied" ∈
      (collectEntry "root" (FSTree.dir "denied" false [.file "secret.txt"])).2 :=
  ⟨by decide, denied_subtree_skipped.2.1 "root"
    (FSTree.dir "denied" false [.file "secret.txt"]) "root/denied" (by decide)⟩

/-- C8: a nonexistent root path reports a does-not-exist condition and
yields an empty sequence without raising; a regular-file root yields
exactly the one-element sequence containing that path. -/
theorem root_path_edge_cases :
    (∀ p : String, (collectFiles p .missing).1 = [] ∧
      (collectFiles p .missing).2 = [.pathNotExist p]) ∧
    (∀ p : String, (collectFiles p .regFile).1 = [p]) :=
  ⟨fun p => ⟨rfl, rfl⟩, fun p => rfl⟩
